import Mathlib

/-!
Verification of the DetectorGraph core engine (`include/graph.hpp`).

The development shallowly embeds the graph data model and the scheduler.
Template bodies present in `graph.hpp` (`ResolveTopic`, `PushData`,
`GetVerticesSize`) are translated directly; the out-of-line members that the
header only declares (`EvaluateGraph`, `TopoSortGraph`, `DFS_visit`,
`ComposeOutputList`, `HasDataPending`, the topic registry and input queue)
are modelled from the specification, as noted on each definition.

Vertices are identified by natural numbers; topic payload types are
identified by a type key (`TKey`), one topic per key per graph; payload
values are modelled as integers.
-/

namespace DetectorGraph

/-- Error taxonomy of the core (spec section 7 / `errortype.hpp`, which is
not under `src/`). -/
inductive ErrorType where
  | success
  | cycleDetected
  | unresolvedTopic
  | duplicateTopic
  | queueOverflow
  | detectorFailure
deriving DecidableEq

/-- Per-pass vertex search state (spec section 3, "Vertex"). -/
inductive SearchState where
  | clear
  | visitInProgress
  | visitDone
deriving DecidableEq

/-- A search-state assignment for all vertex ids. -/
abbrev CMap := Nat → SearchState

/-- Update one vertex's search state. -/
def setSt (c : CMap) (v : Nat) (s : SearchState) : CMap :=
  fun x => if x = v then s else c x

/-- Type key identifying a TopicState type `T` (spec section 9:
"stable type identifier per distinct `T`"). -/
abbrev TKey := Nat

/-- Modelled from the spec: a Detector (spec sections 3 and 4.C/4.E), with
its declared subscriptions and, for each value fed by a
`SubscriptionDispatcher`, the list of publications it makes in response.
The concrete detector classes are not part of the core under `src/`. -/
structure Detector where
  subs : List TKey
  evalFn : TKey → Int → List (TKey × Int)

/-- A vertex is either a topic (a passive slot for one type key) or a
detector (spec section 3). -/
inductive VKind where
  | topic (k : TKey)
  | detector (d : Detector)

/-- The graph/scheduler state (class `Graph` in `graph.hpp`, dynamic
("vanilla") variant).  `verts` is `mVertices` (insertion ordered, replaced
by the sorted order after a topological sort), `edges v` is vertex `v`'s
successor list, `registry` is `mTopicRegistry` (type key to topic vertex),
`inputQueue` is `mGraphInputQueue` (FIFO of pending `(topic key, value)`
dispatchers), `buffers k` is topic `k`'s current-pass buffer,
`outputList` is `mOutputList`, `needsSorting` is `mNeedsSorting`, and
`nextId` models fresh vertex allocation. -/
structure Graph where
  verts : List Nat
  kind : Nat → VKind
  edges : Nat → List Nat
  registry : List (TKey × Nat)
  inputQueue : List (TKey × Int)
  buffers : TKey → List Int
  outputList : List (TKey × List Int)
  needsSorting : Bool
  nextId : Nat

/-- Source: `Graph::GetVerticesSize` (graph.hpp lines 217-220). -/
def Graph.getVerticesSize (g : Graph) : Nat :=
  g.verts.length

/-- Source: `Graph::ResolveTopic<T>` (graph.hpp lines 152-174, vanilla variant):
resolve `T` in the registry; on a miss, create a new `Topic<T>`, register
it and add it as a vertex.  `TopicRegistry::Resolve`/`Register` are
modelled from the spec (section 4.D; `topicregistry.hpp` is not under
`src/`): `Resolve` is lookup by type key, `Register` inserts the binding.
`AddVertex` is modelled from the spec (section 4.H: append to the vertex
set and set the dirty flag). -/
def resolveTopic (g : Graph) (k : TKey) : Nat × Graph :=
  match g.registry.lookup k with
  | some t => (t, g)
  | none =>
    let t := g.nextId
    (t, { g with
          registry := (k, t) :: g.registry,
          verts := g.verts ++ [t],
          kind := fun x => if x = t then VKind.topic k else g.kind x,
          needsSorting := true,
          nextId := g.nextId + 1 })

/-- Source: `Graph::PushData<T>` (graph.hpp lines 183-186):
`mGraphInputQueue.Enqueue(*ResolveTopic<TTopicState>(), aTopicState)`.
`GraphInputQueue::Enqueue` is modelled from the spec (section 4.G:
construct a dispatcher for the resolved topic and append it to the FIFO;
`graphinputqueue.hpp` is not under `src/`). -/
def pushData (g : Graph) (k : TKey) (x : Int) : Graph :=
  let r := resolveTopic g k
  { r.2 with inputQueue := r.2.inputQueue ++ [(k, x)] }

/-- Modelled from the spec: `Graph::HasDataPending` (declared at
graph.hpp lines 193-200, body not under `src/`; spec section 4.H:
"input queue non-empty"). -/
def hasDataPending (g : Graph) : Bool :=
  !g.inputQueue.isEmpty

/-! ### Topological sort

`Graph::TopoSortGraph` and `Graph::DFS_visit` are declared at graph.hpp
lines 264-277 but their bodies are not under `src/`; they are modelled from
the spec (section 4.H, "Topological sort"): depth-first post-order over the
successor edges from each unvisited vertex, producing a reverse post-order
list; encountering a `VisitInProgress` vertex during recursion is a fatal
`CycleDetected` error.

The recursion is fuelled: `dfsVisit` consumes one unit of fuel per nested
visit.  `topoSortGraph` supplies `verts.length + 1` units, which is shown
sufficient (`countClear` strictly decreases at each nested visit). -/

/-- One step of the depth-first scan over a successor list: skip
`visitDone` successors, fail with `CycleDetected` on a `visitInProgress`
successor (a back edge), and recurse (via `dfs`) into `clear` ones. -/
def visitFold (dfs : Nat → CMap → List Nat → Except ErrorType (CMap × List Nat)) :
    List Nat → CMap → List Nat → Except ErrorType (CMap × List Nat)
  | [], c, sorted => .ok (c, sorted)
  | w :: ws, c, sorted =>
    match c w with
    | .visitInProgress => .error .cycleDetected
    | .visitDone => visitFold dfs ws c sorted
    | .clear =>
      match dfs w c sorted with
      | .error e => .error e
      | .ok (c', sorted') => visitFold dfs ws c' sorted'

/-- Modelled from the spec: `Graph::DFS_visit` — mark the vertex
`visitInProgress`, visit all successors depth-first, then mark it
`visitDone` and push it to the front of the reverse post-order list. -/
def dfsVisit (succ : Nat → List Nat) (fuel : Nat) :
    Nat → CMap → List Nat → Except ErrorType (CMap × List Nat) :=
  match fuel with
  | 0 => fun _ _ _ => .error .cycleDetected
  | fuel' + 1 => fun v c sorted =>
    match visitFold (dfsVisit succ fuel') (succ v) (setSt c v .visitInProgress) sorted with
    | .error e => .error e
    | .ok (c', sorted') => .ok (setSt c' v .visitDone, v :: sorted')

/-- Modelled from the spec: the outer loop of `Graph::TopoSortGraph` —
start a depth-first visit from each vertex still `clear`. -/
def topoLoop (succ : Nat → List Nat) (fuel : Nat) :
    List Nat → CMap → List Nat → Except ErrorType (CMap × List Nat)
  | [], c, sorted => .ok (c, sorted)
  | v :: vs, c, sorted =>
    match c v with
    | .clear =>
      match dfsVisit succ fuel v c sorted with
      | .error e => .error e
      | .ok (c', sorted') => topoLoop succ fuel vs c' sorted'
    | _ => topoLoop succ fuel vs c sorted

/-- Modelled from the spec: `Graph::TopoSortGraph` — run the depth-first
scan from every vertex, all search states initially `clear`, and return
the reverse post-order list. -/
def topoSortGraph (succ : Nat → List Nat) (verts : List Nat) :
    Except ErrorType (List Nat) :=
  match topoLoop succ (verts.length + 1) verts (fun _ => .clear) [] with
  | .error e => .error e
  | .ok (_, sorted) => .ok sorted

/-! ### Evaluation pass

`Graph::EvaluateGraph` is declared at graph.hpp lines 189-191; its body is
not under `src/` and is modelled from the spec (section 4.H, "Evaluation
pass"): (1) re-sort if dirty, aborting on `CycleDetected` before any
detector runs; clear every topic's pass buffer and the output list;
(2) dequeue and execute at most one input dispatcher; (3) walk the sorted
vertex list invoking `process()` on each vertex; (4) snapshot every topic
with a new value into the output list, in traversal order. -/

/-- The pass-local publish state: per-topic buffers plus the log of all
`Publish` calls made so far in the pass, in order. -/
abbrev PubState := (TKey → List Int) × List (TKey × Int)

/-- Modelled from the spec: `Topic<T>::Publish` (spec section 4.B) —
append the value to the topic's current-pass buffer (and record it in the
pass's publish log). -/
def publish (st : PubState) (k : TKey) (x : Int) : PubState :=
  (fun k' => if k' = k then st.1 k' ++ [x] else st.1 k', st.2 ++ [(k, x)])

/-- Publish a list of `(topic key, value)` pairs in order. -/
def publishList (st : PubState) (outs : List (TKey × Int)) : PubState :=
  outs.foldl (fun st p => publish st p.1 p.2) st

/-- Modelled from the spec: `SubscriptionDispatcher::Dispatch` (spec
section 4.E) — feed the subscriber each currently buffered value of the
publisher topic, in publish order; each fed value may publish. -/
def dispatchValues (d : Detector) (s : TKey) (vals : List Int) (st : PubState) : PubState :=
  vals.foldl (fun st x => publishList st (d.evalFn s x)) st

/-- Modelled from the spec: a detector's `process()` — run each
subscription dispatcher in declaration order over the subscribed topic's
current buffer. -/
def processDetector (d : Detector) (st : PubState) : PubState :=
  d.subs.foldl (fun st s => dispatchValues d s (st.1 s) st) st

/-- Modelled from the spec: `Vertex::process()` during traversal — a no-op
for topics (passive slots), the subscription dispatch for detectors. -/
def processVertex (kind : Nat → VKind) (st : PubState) (v : Nat) : PubState :=
  match kind v with
  | .topic _ => st
  | .detector d => processDetector d st

/-- Modelled from the spec: `Graph::TraverseVertices` — walk the sorted
vertex list front to back, invoking `process()` on each vertex. -/
def traverse (kind : Nat → VKind) (verts : List Nat) (st : PubState) : PubState :=
  verts.foldl (processVertex kind) st

/-- Modelled from the spec: `Graph::ComposeOutputList` (declared at
graph.hpp lines 268-272, body not under `src/`) — snapshot every topic
with `HasNewValue()` into the output list, in traversal order. -/
def composeOutputList (kind : Nat → VKind) (verts : List Nat)
    (buffers : TKey → List Int) : List (TKey × List Int) :=
  verts.filterMap fun v =>
    match kind v with
    | .topic k => if buffers k = [] then none else some (k, buffers k)
    | .detector _ => none

/-- The observable outcome of one evaluation pass: the new graph state,
the order in which `process()` was invoked, the input dispatcher that was
dequeued and executed (if any), and the pass's publish log. -/
structure PassResult where
  graph : Graph
  trace : List Nat
  injected : Option (TKey × Int)
  pubLog : List (TKey × Int)

/-- Modelled from the spec: steps 1 (buffer/output clearing) to 4 of the
evaluation pass, run on a graph whose vertex list is already sorted. -/
def runPass (g : Graph) : PassResult :=
  let st0 : PubState := (fun _ => [], [])
  let step1 :=
    match g.inputQueue with
    | [] => (none, ([] : List (TKey × Int)), st0)
    | d :: rest => (some d, rest, publish st0 d.1 d.2)
  let st2 := traverse g.kind g.verts step1.2.2
  let out := composeOutputList g.kind g.verts st2.1
  { graph := { g with buffers := st2.1, inputQueue := step1.2.1, outputList := out },
    trace := g.verts,
    injected := step1.1,
    pubLog := st2.2 }

/-- Modelled from the spec: `Graph::EvaluateGraph` — re-sort if the dirty
flag is set (a `CycleDetected` failure aborts the pass before any detector
runs and leaves the state untouched), then run one evaluation pass over
the sorted vertex list. -/
def evaluateGraph (g : Graph) : ErrorType × PassResult :=
  if g.needsSorting then
    match topoSortGraph g.edges g.verts with
    | .error e => (e, { graph := g, trace := [], injected := none, pubLog := [] })
    | .ok sorted =>
      (.success, runPass { g with verts := sorted, needsSorting := false })
  else
    (.success, runPass g)

/-- Push a list of inputs in order via `pushData`. -/
def pushDataList (g : Graph) (inputs : List (TKey × Int)) : Graph :=
  inputs.foldl (fun g p => pushData g p.1 p.2) g

/-- Run `n` successive evaluation passes, collecting each pass's injected
input. -/
def evalSeq (g : Graph) : Nat → Graph × List (Option (TKey × Int))
  | 0 => (g, [])
  | n + 1 =>
    let r := evaluateGraph g
    let rest := evalSeq r.2.graph n
    (rest.1, r.2.injected :: rest.2)

/-- Whether an `Except` result is a success. -/
def exOk : Except ErrorType α → Bool
  | .ok _ => true
  | .error _ => false

/-- The graph's pending topological sort (if any) succeeds.  A graph whose
dirty flag is clear trivially satisfies this. -/
def SortReady (g : Graph) : Prop :=
  g.needsSorting = true → exOk (topoSortGraph g.edges g.verts) = true

/-! ### Reachability and cycles -/

/-- Reachability along successor edges (zero or more steps). -/
inductive Reaches (succ : Nat → List Nat) : Nat → Nat → Prop
  | refl (v : Nat) : Reaches succ v v
  | step {u w v : Nat} : w ∈ succ u → Reaches succ w v → Reaches succ u v

/-- Reachability in at least one step. -/
def ReachesPlus (succ : Nat → List Nat) (u v : Nat) : Prop :=
  ∃ w, w ∈ succ u ∧ Reaches succ w v

/-- The graph with vertex set `verts` and successor map `succ` contains a
directed cycle. -/
def HasCycleIn (verts : List Nat) (succ : Nat → List Nat) : Prop :=
  ∃ u, u ∈ verts ∧ ReachesPlus succ u u

/-- Well-formedness of a vertex set with successor map: no duplicate
vertices, and every successor is itself a vertex of the graph (spec
section 3, "Vertex" invariants). -/
def WFGraph (verts : List Nat) (succ : Nat → List Nat) : Prop :=
  verts.Nodup ∧ ∀ v ∈ verts, ∀ w ∈ succ v, w ∈ verts

/-- Number of vertices still `clear`. -/
def countClear (verts : List Nat) (c : CMap) : Nat :=
  verts.countP fun x => c x == .clear

/-- Invariant tying a search-state map to the reverse post-order list built
so far: the list has no duplicates, its members are exactly the `visitDone`
vertices, and every member's successors occur strictly later in it. -/
def Jinv (succ : Nat → List Nat) (c : CMap) (sorted : List Nat) : Prop :=
  sorted.Nodup ∧
  (∀ x, c x = .visitDone ↔ x ∈ sorted) ∧
  (∀ l1 x l2, sorted = l1 ++ x :: l2 → ∀ w ∈ succ x, w ∈ l2)

/-- The behavioural contract of a depth-first visit step on success: search
states change only from `clear` to `visitDone`, the visited vertex ends
`visitDone`, the invariant `Jinv` is preserved, and (in a well-formed
graph) only graph vertices change state. -/
def DfsSpec (succ : Nat → List Nat) (verts : List Nat)
    (dfs : Nat → CMap → List Nat → Except ErrorType (CMap × List Nat)) : Prop :=
  ∀ v c sorted c' sorted', dfs v c sorted = .ok (c', sorted') → c v = .clear →
    (∀ x, c' x = c x ∨ (c x = .clear ∧ c' x = .visitDone)) ∧
    c' v = .visitDone ∧
    (Jinv succ c sorted → Jinv succ c' sorted') ∧
    ((∀ a ∈ verts, ∀ b ∈ succ a, b ∈ verts) → v ∈ verts →
      ∀ x, c' x ≠ c x → x ∈ verts)

/-- Totality contract of a depth-first visit step with fuel bound `n`:
on a vertex still `clear`, when every `visitInProgress` vertex reaches the
target in at least one step and at most `n` vertices are still `clear`,
the visit succeeds. -/
def DfsTotal (succ : Nat → List Nat) (verts : List Nat) (n : Nat)
    (dfs : Nat → CMap → List Nat → Except ErrorType (CMap × List Nat)) : Prop :=
  ∀ v c sorted, v ∈ verts → c v = .clear →
    (∀ x, c x = .visitInProgress → ReachesPlus succ x v) →
    countClear verts c ≤ n →
    exOk (dfs v c sorted) = true

/-- Invariant of the pass-local publish state: each topic's buffer holds
exactly the values published to it so far this pass, in publish order. -/
def PubInv (st : PubState) : Prop :=
  ∀ k, st.1 k = (st.2.filter (fun p => p.1 == k)).map Prod.snd

/-! ### Example graphs used by the witnesses -/

/-- A freshly constructed empty graph. -/
def exampleEmpty : Graph where
  verts := []
  kind := fun _ => .topic 0
  edges := fun _ => []
  registry := []
  inputQueue := []
  buffers := fun _ => []
  outputList := []
  needsSorting := false
  nextId := 0

/-- A two-vertex acyclic graph: topic `0` feeding a detector that has no
publications. -/
def exampleAcyclic : Graph where
  verts := [0, 1]
  kind := fun v => if v = 0 then .topic 0 else .detector ⟨[0], fun _ _ => []⟩
  edges := fun v => if v = 0 then [1] else []
  registry := [(0, 0)]
  inputQueue := []
  buffers := fun _ => []
  outputList := []
  needsSorting := true
  nextId := 2

/-- A two-vertex graph with a directed cycle `0 → 1 → 0`. -/
def exampleCycle : Graph where
  verts := [0, 1]
  kind := fun _ => .topic 0
  edges := fun v => if v = 0 then [1] else [0]
  registry := []
  inputQueue := []
  buffers := fun _ => []
  outputList := []
  needsSorting := true
  nextId := 2

/-- A linear chain (scenario S1): topic `A` (key 0, vertex 0), detector
doubling `A → B` (vertex 1), topic `B` (key 1, vertex 2), detector adding
one `B → C` (vertex 3), topic `C` (key 2, vertex 4), with `A = 3` queued.
The vertex list is deliberately left in a scrambled insertion order. -/
def exampleChain : Graph where
  verts := [4, 3, 2, 1, 0]
  kind := fun v =>
    if v = 0 then .topic 0
    else if v = 1 then .detector ⟨[0], fun _ x => [(1, x * 2)]⟩
    else if v = 2 then .topic 1
    else if v = 3 then .detector ⟨[1], fun _ x => [(2, x + 1)]⟩
    else .topic 2
  edges := fun v =>
    if v = 0 then [1]
    else if v = 1 then [2]
    else if v = 2 then [3]
    else if v = 3 then [4]
    else []
  registry := [(0, 0), (1, 2), (2, 4)]
  inputQueue := [(0, 3)]
  buffers := fun _ => []
  outputList := []
  needsSorting := true
  nextId := 5

/-! ### C5, C6 — `ResolveTopic` -/

theorem lookup_cons_self {t : Nat} {k : TKey} {r : List (TKey × Nat)} :
    List.lookup k ((k, t) :: r) = some t := by
  simp [List.lookup]

/-- C5: for every graph `G` and every topic-state type `T`, two successive
calls to `ResolveTopic<T>()` on `G` return the same topic pointer (and the
second call leaves the graph unchanged). -/
theorem resolveTopic_idempotent (g : Graph) (k : TKey) :
    resolveTopic (resolveTopic g k).2 k = ((resolveTopic g k).1, (resolveTopic g k).2) := by
  cases h : g.registry.lookup k with
  | some t => simp [resolveTopic, h]
  | none => simp [resolveTopic, h, lookup_cons_self]

/-- C6: in the dynamic variant, when no topic for type `T` exists,
`ResolveTopic<T>()` creates a `Topic<T>`, registers it, and adds it as a
vertex, so `GetVerticesSize` increases by exactly one; a second call
returns the same reference and leaves `GetVerticesSize` unchanged. -/
theorem resolveTopic_miss_creates (g : Graph) (k : TKey)
    (h : g.registry.lookup k = none) :
    (resolveTopic g k).2.kind (resolveTopic g k).1 = VKind.topic k ∧
    (resolveTopic g k).2.registry.lookup k = some (resolveTopic g k).1 ∧
    (resolveTopic g k).1 ∈ (resolveTopic g k).2.verts ∧
    (resolveTopic g k).2.getVerticesSize = g.getVerticesSize + 1 ∧
    (resolveTopic (resolveTopic g k).2 k).1 = (resolveTopic g k).1 ∧
    (resolveTopic (resolveTopic g k).2 k).2.getVerticesSize
      = (resolveTopic g k).2.getVerticesSize := by
  refine ⟨?_, ?_, ?_, ?_, ?_, ?_⟩ <;>
    simp [resolveTopic, h, lookup_cons_self, Graph.getVerticesSize]

/-- Witness for C6 at the empty graph and type key `0`. -/
theorem resolveTopic_miss_creates_witness :
    (resolveTopic exampleEmpty 0).2.getVerticesSize = exampleEmpty.getVerticesSize + 1 ∧
    (resolveTopic (resolveTopic exampleEmpty 0).2 0).1 = (resolveTopic exampleEmpty 0).1 ∧
    (resolveTopic (resolveTopic exampleEmpty 0).2 0).2.getVerticesSize
      = (resolveTopic exampleEmpty 0).2.getVerticesSize :=
  let h := resolveTopic_miss_creates exampleEmpty 0 (by decide)
  ⟨h.2.2.2.1, h.2.2.2.2.1, h.2.2.2.2.2⟩

/-! ### C9, C10 — `PushData` -/

/-- Pushing data appends exactly one dispatcher to the input queue. -/
theorem pushData_inputQueue (g : Graph) (k : TKey) (x : Int) :
    (pushData g k x).inputQueue = g.inputQueue ++ [(k, x)] := by
  cases h : g.registry.lookup k <;> simp [pushData, resolveTopic, h]

/-- C9: in the dynamic variant, immediately after any `PushData<T>(v)`,
`HasDataPending()` returns true. -/
theorem hasDataPending_after_pushData (g : Graph) (k : TKey) (x : Int) :
    hasDataPending (pushData g k x) = true := by
  simp [hasDataPending, pushData_inputQueue]

/-- C10: in the dynamic variant, when a topic for type `T` is already
registered, `PushData<T>(v)`'s only state effect is appending one
dispatcher to the input queue; in particular the vertex set and the topic
registry are unchanged. -/
theorem pushData_hit_frame (g : Graph) (k : TKey) (x : Int) (t : Nat)
    (h : g.registry.lookup k = some t) :
    pushData g k x = { g with inputQueue := g.inputQueue ++ [(k, x)] } ∧
    (pushData g k x).getVerticesSize = g.getVerticesSize ∧
    (pushData g k x).registry = g.registry := by
  refine ⟨?_, ?_, ?_⟩ <;> simp [pushData, resolveTopic, h, Graph.getVerticesSize]

/-- Witness for C10: pushing to the already-registered topic `0` of the
acyclic example graph. -/
theorem pushData_hit_frame_witness :
    pushData exampleAcyclic 0 7
      = { exampleAcyclic with inputQueue := exampleAcyclic.inputQueue ++ [(0, 7)] } ∧
    (pushData exampleAcyclic 0 7).getVerticesSize = exampleAcyclic.getVerticesSize ∧
    (pushData exampleAcyclic 0 7).registry = exampleAcyclic.registry :=
  pushData_hit_frame exampleAcyclic 0 7 0 (by decide)

/-! ### Error classification: the only sort failure is `CycleDetected` -/

theorem visitFold_error_eq {dfs : Nat → CMap → List Nat → Except ErrorType (CMap × List Nat)}
    (hdfs : ∀ v c s e, dfs v c s = .error e → e = .cycleDetected) :
    ∀ l c s e, visitFold dfs l c s = .error e → e = .cycleDetected := by
  intro l
  induction l with
  | nil => intro c s e h; simp [visitFold] at h
  | cons w ws ih =>
    intro c s e h
    unfold visitFold at h
    cases hw : c w with
    | visitInProgress => simp [hw] at h; exact h.symm
    | visitDone => simp [hw] at h; exact ih _ _ _ h
    | clear =>
      simp only [hw] at h
      cases hd : dfs w c s with
      | error e' =>
        simp [hd] at h
        exact h ▸ hdfs _ _ _ _ hd
      | ok r => simp [hd] at h; exact ih _ _ _ h

theorem dfsVisit_error_eq (succ : Nat → List Nat) :
    ∀ fuel v c s e, dfsVisit succ fuel v c s = .error e → e = .cycleDetected := by
  intro fuel
  induction fuel with
  | zero => intro v c s e h; simp [dfsVisit] at h; exact h.symm
  | succ fuel' ih =>
    intro v c s e h
    unfold dfsVisit at h
    cases hv : visitFold (dfsVisit succ fuel') (succ v) (setSt c v .visitInProgress) s with
    | error e' =>
      simp [hv] at h
      exact h ▸ visitFold_error_eq ih _ _ _ _ hv
    | ok r => simp [hv] at h

theorem topoLoop_error_eq (succ : Nat → List Nat) (fuel : Nat) :
    ∀ l c s e, topoLoop succ fuel l c s = .error e → e = .cycleDetected := by
  intro l
  induction l with
  | nil => intro c s e h; simp [topoLoop] at h
  | cons v vs ih =>
    intro c s e h
    unfold topoLoop at h
    cases hv : c v with
    | clear =>
      simp only [hv] at h
      cases hd : dfsVisit succ fuel v c s with
      | error e' =>
        simp [hd] at h
        exact h ▸ dfsVisit_error_eq succ fuel _ _ _ _ hd
      | ok r => simp [hd] at h; exact ih _ _ _ h
    | visitInProgress => simp [hv] at h; exact ih _ _ _ h
    | visitDone => simp [hv] at h; exact ih _ _ _ h

theorem topoSortGraph_error_eq (succ : Nat → List Nat) (verts : List Nat) (e : ErrorType)
    (h : topoSortGraph succ verts = .error e) : e = .cycleDetected := by
  unfold topoSortGraph at h
  cases hl : topoLoop succ (verts.length + 1) verts (fun _ => .clear) [] with
  | error e' =>
    simp [hl] at h
    exact h ▸ topoLoop_error_eq succ _ _ _ _ _ hl
  | ok r => simp [hl] at h

/-! ### Basic facts about one evaluation pass -/

theorem runPass_basic (g : Graph) :
    (runPass g).injected = g.inputQueue.head? ∧
    (runPass g).graph.inputQueue = g.inputQueue.tail ∧
    (runPass g).graph.needsSorting = g.needsSorting ∧
    (runPass g).trace = g.verts := by
  cases hq : g.inputQueue <;> simp [runPass, hq]

theorem exOk_ok {r : Except ErrorType α} (h : exOk r = true) : ∃ x, r = .ok x := by
  cases r with
  | ok x => exact ⟨x, rfl⟩
  | error e => simp [exOk] at h

/-- One evaluation pass on a graph whose pending sort (if any) succeeds:
the pass returns `Success`, dequeues exactly the head of the input queue,
and leaves the dirty flag clear. -/
theorem evaluateGraph_step (g : Graph) (hs : SortReady g) :
    (evaluateGraph g).1 = .success ∧
    (evaluateGraph g).2.injected = g.inputQueue.head? ∧
    (evaluateGraph g).2.graph.inputQueue = g.inputQueue.tail ∧
    (evaluateGraph g).2.graph.needsSorting = false := by
  cases hd : g.needsSorting with
  | true =>
    obtain ⟨sorted, hsorted⟩ := exOk_ok (hs hd)
    have he : evaluateGraph g
        = (.success, runPass { g with verts := sorted, needsSorting := false }) := by
      simp [evaluateGraph, hd, hsorted]
    have h := runPass_basic { g with verts := sorted, needsSorting := false }
    rw [he]
    exact ⟨rfl, h.1, h.2.1, h.2.2.1⟩
  | false =>
    have he : evaluateGraph g = (.success, runPass g) := by
      simp [evaluateGraph, hd]
    have h := runPass_basic g
    rw [he]
    exact ⟨rfl, h.1, h.2.1, h.2.2.1.trans hd⟩

/-! ### C3 — FIFO consumption of the input queue across passes -/

theorem evalSeq_fifo :
    ∀ (q : List (TKey × Int)) (g : Graph), g.inputQueue = q → SortReady g →
      (evalSeq g q.length).2 = q.map some ∧ (evalSeq g q.length).1.inputQueue = [] := by
  intro q
  induction q with
  | nil => intro g hq _; simpa [evalSeq] using hq
  | cons d rest ih =>
    intro g hq hs
    obtain ⟨_, hinj, hq', hd'⟩ := evaluateGraph_step g hs
    have hs' : SortReady (evaluateGraph g).2.graph := by
      intro hcontra; rw [hd'] at hcontra; exact absurd hcontra (by simp)
    have hrest : (evaluateGraph g).2.graph.inputQueue = rest := by
      rw [hq', hq]; rfl
    obtain ⟨ih1, ih2⟩ := ih _ hrest hs'
    refine ⟨?_, ?_⟩
    · show (evaluateGraph g).2.injected :: (evalSeq (evaluateGraph g).2.graph rest.length).2
        = (d :: rest).map some
      rw [ih1, hinj, hq]
      simp
    · exact ih2

theorem pushDataList_inputQueue :
    ∀ (inputs : List (TKey × Int)) (g : Graph),
      (pushDataList g inputs).inputQueue = g.inputQueue ++ inputs := by
  intro inputs
  induction inputs with
  | nil => intro g; simp [pushDataList]
  | cons p rest ih =>
    intro g
    show (pushDataList (pushData g p.1 p.2) rest).inputQueue = _
    rw [ih, pushData_inputQueue]
    simp

/-- C3: inputs pushed via `PushData` are consumed in FIFO order across
passes, one per `EvaluateGraph` call: starting from an empty queue, after
pushing `v1..vn`, `n` successive passes inject `v1, ..., vn` in that
order, and afterwards `HasDataPending()` is false. -/
theorem fifo_across_passes (g : Graph) (inputs : List (TKey × Int))
    (h0 : g.inputQueue = []) (hs : SortReady (pushDataList g inputs)) :
    (evalSeq (pushDataList g inputs) inputs.length).2 = inputs.map some ∧
    (evalSeq (pushDataList g inputs) inputs.length).1.inputQueue = [] ∧
    hasDataPending (evalSeq (pushDataList g inputs) inputs.length).1 = false := by
  have hq : (pushDataList g inputs).inputQueue = inputs := by
    rw [pushDataList_inputQueue, h0]; simp
  obtain ⟨h1, h2⟩ := evalSeq_fifo inputs (pushDataList g inputs) hq hs
  exact ⟨h1, h2, by simp [hasDataPending, h2]⟩

/-- Witness for C3: scenario S4 — three pushes to topic `0` of the empty
graph, three passes, injecting `1, 2, 3` in order. -/
theorem fifo_across_passes_witness :
    (evalSeq (pushDataList exampleEmpty [(0, 1), (0, 2), (0, 3)]) 3).2
      = [some (0, 1), some (0, 2), some (0, 3)] ∧
    (evalSeq (pushDataList exampleEmpty [(0, 1), (0, 2), (0, 3)]) 3).1.inputQueue = [] ∧
    hasDataPending (evalSeq (pushDataList exampleEmpty [(0, 1), (0, 2), (0, 3)]) 3).1
      = false :=
  fifo_across_passes exampleEmpty [(0, 1), (0, 2), (0, 3)] (by decide) (by intro _; decide)

/-! ### C7 — `HasDataPending` and queue length -/

/-- C7: `HasDataPending()` is true iff the input queue length is positive,
and every successful `EvaluateGraph` call on a non-empty queue decreases
the queue length by exactly one. -/
theorem hasDataPending_queue_length (g : Graph) :
    (hasDataPending g = true ↔ 0 < g.inputQueue.length) ∧
    ((evaluateGraph g).1 = .success → 0 < g.inputQueue.length →
      (evaluateGraph g).2.graph.inputQueue.length + 1 = g.inputQueue.length) := by
  constructor
  · cases hq : g.inputQueue <;> simp [hasDataPending, hq]
  · intro hok hpos
    cases hd : g.needsSorting with
    | true =>
      cases hts : topoSortGraph g.edges g.verts with
      | error e =>
        have he : evaluateGraph g
            = (e, { graph := g, trace := [], injected := none, pubLog := [] }) := by
          simp [evaluateGraph, hd, hts]
        rw [he] at hok
        exact absurd ((topoSortGraph_error_eq g.edges g.verts e hts).symm.trans hok)
          (by decide)
      | ok sorted =>
        have he : evaluateGraph g
            = (.success, runPass { g with verts := sorted, needsSorting := false }) := by
          simp [evaluateGraph, hd, hts]
        rw [he, (runPass_basic { g with verts := sorted, needsSorting := false }).2.1]
        show g.inputQueue.tail.length + 1 = g.inputQueue.length
        cases hql : g.inputQueue with
        | nil => rw [hql] at hpos; simp at hpos
        | cons a l => simp
    | false =>
      have he : evaluateGraph g = (.success, runPass g) := by
        simp [evaluateGraph, hd]
      rw [he, (runPass_basic g).2.1]
      cases hql : g.inputQueue with
      | nil => rw [hql] at hpos; simp at hpos
      | cons a l => simp

/-- Witness for C7 at the S1 chain graph, whose queue holds one input. -/
theorem hasDataPending_queue_length_witness :
    (evaluateGraph exampleChain).2.graph.inputQueue.length + 1
      = exampleChain.inputQueue.length :=
  (hasDataPending_queue_length exampleChain).2 (by decide) (by decide)

/-! ### Soundness of the depth-first topological sort -/

theorem Reaches.append_edge {succ : Nat → List Nat} {a b w : Nat}
    (h : Reaches succ a b) (hw : w ∈ succ b) : Reaches succ a w := by
  induction h with
  | refl v => exact Reaches.step hw (Reaches.refl w)
  | step hm _ ih => exact Reaches.step hm (ih hw)

theorem setSt_self (c : CMap) (v : Nat) (s : SearchState) : setSt c v s v = s := by
  simp [setSt]

theorem setSt_ne (c : CMap) (v : Nat) (s : SearchState) {x : Nat} (h : x ≠ v) :
    setSt c v s x = c x := by
  simp [setSt, h]

theorem visitFold_spec {succ : Nat → List Nat} {verts : List Nat}
    {dfs : Nat → CMap → List Nat → Except ErrorType (CMap × List Nat)}
    (hdfs : DfsSpec succ verts dfs) :
    ∀ l c sorted c' sorted', visitFold dfs l c sorted = .ok (c', sorted') →
      (∀ x, c' x = c x ∨ (c x = .clear ∧ c' x = .visitDone)) ∧
      (∀ w ∈ l, c' w = .visitDone) ∧
      (Jinv succ c sorted → Jinv succ c' sorted') ∧
      ((∀ a ∈ verts, ∀ b ∈ succ a, b ∈ verts) → (∀ w ∈ l, w ∈ verts) →
        ∀ x, c' x ≠ c x → x ∈ verts) := by
  intro l
  induction l with
  | nil =>
    intro c sorted c' sorted' h
    simp only [visitFold, Except.ok.injEq, Prod.mk.injEq] at h
    obtain ⟨rfl, rfl⟩ := h
    exact ⟨fun x => .inl rfl, by simp, id, fun _ _ x hx => absurd rfl hx⟩
  | cons w ws ih =>
    intro c sorted c' sorted' h
    unfold visitFold at h
    cases hw : c w with
    | visitInProgress => simp only [hw] at h; exact Except.noConfusion h
    | visitDone =>
      simp only [hw] at h
      obtain ⟨a1, a2, a4, a5⟩ := ih c sorted c' sorted' h
      refine ⟨a1, ?_, a4, fun hWF hl => a5 hWF (fun u hu => hl u (List.mem_cons_of_mem _ hu))⟩
      intro u hu
      rcases List.mem_cons.mp hu with rfl | hmem
      · rcases a1 u with heq | ⟨_, hdone⟩
        · rw [heq]; exact hw
        · exact hdone
      · exact a2 u hmem
    | clear =>
      simp only [hw] at h
      cases hd : dfs w c sorted with
      | error e => simp only [hd] at h; exact Except.noConfusion h
      | ok r =>
        obtain ⟨c1, s1⟩ := r
        simp only [hd] at h
        obtain ⟨d1, d2, d4, d5⟩ := hdfs w c sorted c1 s1 hd hw
        obtain ⟨a1, a2, a4, a5⟩ := ih c1 s1 c' sorted' h
        refine ⟨?_, ?_, fun hJ => a4 (d4 hJ), ?_⟩
        · intro x
          rcases a1 x with heq | ⟨hclear1, hdone'⟩
          · rcases d1 x with heq0 | ⟨hclear0, hdone1⟩
            · exact .inl (heq.trans heq0)
            · exact .inr ⟨hclear0, heq.trans hdone1⟩
          · rcases d1 x with heq0 | ⟨hclear0, hdone1⟩
            · exact .inr ⟨heq0.symm.trans hclear1, hdone'⟩
            · exact absurd (hdone1.symm.trans hclear1) (fun hcon => SearchState.noConfusion hcon)
        · intro u hu
          rcases List.mem_cons.mp hu with rfl | hmem
          · rcases a1 u with heq | ⟨_, hdone'⟩
            · rw [heq]; exact d2
            · exact hdone'
          · exact a2 u hmem
        · intro hWF hl x hx
          by_cases h1 : c1 x = c x
          · exact a5 hWF (fun u hu => hl u (List.mem_cons_of_mem _ hu)) x
              (fun hcon => hx (hcon.trans h1))
          · exact d5 hWF (hl w (List.mem_cons_self w ws)) x h1

theorem dfsVisit_spec (succ : Nat → List Nat) (verts : List Nat) :
    ∀ fuel, DfsSpec succ verts (dfsVisit succ fuel) := by
  intro fuel
  induction fuel with
  | zero =>
    intro v c sorted c' sorted' h _
    simp [dfsVisit] at h
  | succ fuel' ih =>
    intro v c sorted c' sorted' h hv
    unfold dfsVisit at h
    cases hvf : visitFold (dfsVisit succ fuel') (succ v) (setSt c v .visitInProgress) sorted with
    | error e => simp only [hvf] at h; exact Except.noConfusion h
    | ok r =>
      obtain ⟨c2, s2⟩ := r
      simp only [hvf, Except.ok.injEq, Prod.mk.injEq] at h
      obtain ⟨rfl, rfl⟩ := h
      obtain ⟨f1, f2, f4, f5⟩ :=
        visitFold_spec ih (succ v) (setSt c v .visitInProgress) sorted c2 s2 hvf
      refine ⟨?_, setSt_self c2 v .visitDone, ?_, ?_⟩
      · intro x
        by_cases hxv : x = v
        · subst hxv; exact .inr ⟨hv, setSt_self c2 x .visitDone⟩
        · rw [setSt_ne c2 v .visitDone hxv]
          rcases f1 x with heq | ⟨hclear, hdone⟩
          · rw [heq, setSt_ne c v .visitInProgress hxv]; exact .inl rfl
          · rw [setSt_ne c v .visitInProgress hxv] at hclear
            exact .inr ⟨hclear, hdone⟩
      · intro hJ
        have hvNotDone : c v ≠ .visitDone := by rw [hv]; exact fun hcon => SearchState.noConfusion hcon
        have hvNotIn : v ∉ sorted := fun hmem => hvNotDone ((hJ.2.1 v).mpr hmem)
        have hJ1 : Jinv succ (setSt c v .visitInProgress) sorted := by
          refine ⟨hJ.1, ?_, hJ.2.2⟩
          intro x
          by_cases hxv : x = v
          · subst hxv
            rw [setSt_self]
            exact ⟨fun hcon => absurd hcon (fun h => SearchState.noConfusion h),
                   fun hmem => absurd hmem hvNotIn⟩
          · rw [setSt_ne c v .visitInProgress hxv]; exact hJ.2.1 x
        have hJ2 : Jinv succ c2 s2 := f4 hJ1
        have hvNotIn2 : v ∉ s2 := by
          intro hmem
          have hdone2 : c2 v = .visitDone := (hJ2.2.1 v).mpr hmem
          rcases f1 v with heq | ⟨hclear, _⟩
          · rw [heq, setSt_self] at hdone2; exact SearchState.noConfusion hdone2
          · rw [setSt_self] at hclear; exact SearchState.noConfusion hclear
        refine ⟨List.nodup_cons.mpr ⟨hvNotIn2, hJ2.1⟩, ?_, ?_⟩
        · intro x
          by_cases hxv : x = v
          · subst hxv
            rw [setSt_self]
            exact ⟨fun _ => List.mem_cons_self x s2, fun _ => rfl⟩
          · rw [setSt_ne c2 v .visitDone hxv, List.mem_cons]
            rw [hJ2.2.1 x]
            exact ⟨fun hm => .inr hm, fun hm => hm.elim (fun he => absurd he hxv) id⟩
        · intro l1 x l2 hsplit w hw
          cases l1 with
          | nil =>
            rw [List.nil_append] at hsplit
            injection hsplit with h1 h2
            subst h1; subst h2
            exact (hJ2.2.1 w).mp (f2 w hw)
          | cons a l1' =>
            rw [List.cons_append] at hsplit
            injection hsplit with h1 h2
            exact hJ2.2.2 l1' x l2 h2 w hw
      · intro hWF hvverts x hx
        by_cases hxv : x = v
        · subst hxv; exact hvverts
        · refine f5 hWF (fun b hb => hWF v hvverts b hb) x ?_
          intro hcon
          apply hx
          rw [setSt_ne c2 v .visitDone hxv, hcon, setSt_ne c v .visitInProgress hxv]

/-! ### Completeness: on a well-formed acyclic graph the sort succeeds -/

theorem countClear_pos {verts : List Nat} {c : CMap} {v : Nat} (hv : v ∈ verts)
    (hc : c v = .clear) : 0 < countClear verts c :=
  List.countP_pos_iff.mpr ⟨v, hv, by simp [hc]⟩

theorem countClear_mono {verts : List Nat} {c1 c2 : CMap}
    (h : ∀ x, c1 x = .clear → c2 x = .clear) :
    countClear verts c1 ≤ countClear verts c2 :=
  List.countP_mono_left fun x _ hx => by
    simp only [beq_iff_eq] at hx ⊢
    exact h x hx

theorem countClear_setSt {c : CMap} {v : Nat} {s : SearchState}
    (hs : s ≠ .clear) (hc : c v = .clear) :
    ∀ verts : List Nat, verts.Nodup → v ∈ verts →
      countClear verts (setSt c v s) + 1 = countClear verts c := by
  intro verts
  induction verts with
  | nil => intro _ hv; cases hv
  | cons a rest ih =>
    intro hN hv
    obtain ⟨haNot, hNr⟩ := List.nodup_cons.mp hN
    unfold countClear at ih ⊢
    rw [List.countP_cons, List.countP_cons]
    by_cases hav : a = v
    · subst hav
      have hrest : List.countP (fun x => setSt c a s x == .clear) rest
          = List.countP (fun x => c x == .clear) rest := by
        apply List.countP_congr
        intro x hx
        have hxa : x ≠ a := fun hcon => haNot (hcon ▸ hx)
        rw [setSt_ne c a s hxa]
      have h1 : (setSt c a s a == SearchState.clear) = false := by
        rw [setSt_self]
        cases s with
        | clear => exact absurd rfl hs
        | visitInProgress => rfl
        | visitDone => rfl
      have h2 : (c a == SearchState.clear) = true := by simp [hc]
      rw [hrest, h1, h2]
      simp
    · have hvr : v ∈ rest := by
        rcases List.mem_cons.mp hv with h | h
        · exact absurd h.symm hav
        · exact h
      have hpa : (setSt c v s a == SearchState.clear) = (c a == SearchState.clear) := by
        rw [setSt_ne c v s hav]
      rw [hpa]
      have := ih hNr hvr
      omega

theorem visitFold_total {succ : Nat → List Nat} {verts : List Nat} {n : Nat}
    {dfs : Nat → CMap → List Nat → Except ErrorType (CMap × List Nat)}
    (hA : ¬ HasCycleIn verts succ)
    (hspec : DfsSpec succ verts dfs) (htot : DfsTotal succ verts n dfs) :
    ∀ l c sorted,
      (∀ w ∈ l, w ∈ verts) →
      (∀ w ∈ l, ∀ x, c x = .visitInProgress → ReachesPlus succ x w) →
      countClear verts c ≤ n →
      exOk (visitFold dfs l c sorted) = true := by
  intro l
  induction l with
  | nil => intro c sorted _ _ _; rfl
  | cons w ws ih =>
    intro c sorted hl hgrey hcount
    unfold visitFold
    cases hw : c w with
    | visitInProgress =>
      exact absurd ⟨w, hl w (List.mem_cons_self w ws),
        hgrey w (List.mem_cons_self w ws) w hw⟩ hA
    | visitDone =>
      exact ih c sorted (fun u hu => hl u (List.mem_cons_of_mem _ hu))
        (fun u hu => hgrey u (List.mem_cons_of_mem _ hu)) hcount
    | clear =>
      have h1 := htot w c sorted (hl w (List.mem_cons_self w ws)) hw
        (hgrey w (List.mem_cons_self w ws)) hcount
      obtain ⟨⟨c1, s1⟩, hd⟩ := exOk_ok h1
      obtain ⟨d1, _, _, _⟩ := hspec w c sorted c1 s1 hd hw
      simp only [hd]
      apply ih c1 s1 (fun u hu => hl u (List.mem_cons_of_mem _ hu))
      · intro u hu x hx
        have hcx : c x = .visitInProgress := by
          rcases d1 x with heq | ⟨_, hdone⟩
          · rw [← heq]; exact hx
          · rw [hx] at hdone; exact SearchState.noConfusion hdone
        exact hgrey u (List.mem_cons_of_mem _ hu) x hcx
      · refine le_trans (countClear_mono ?_) hcount
        intro x hx
        rcases d1 x with heq | ⟨hclear, _⟩
        · exact heq ▸ hx
        · exact hclear

theorem dfsVisit_total {succ : Nat → List Nat} {verts : List Nat}
    (hWF : WFGraph verts succ) (hA : ¬ HasCycleIn verts succ) :
    ∀ fuel, DfsTotal succ verts fuel (dfsVisit succ fuel) := by
  intro fuel
  induction fuel with
  | zero =>
    intro v c sorted hv hc _ hcount
    have := countClear_pos hv hc
    omega
  | succ fuel' ih =>
    intro v c sorted hv hc hgrey hcount
    have hdec : countClear verts (setSt c v .visitInProgress) + 1 = countClear verts c :=
      countClear_setSt (fun hcon => SearchState.noConfusion hcon) hc verts hWF.1 hv
    have hvtot := visitFold_total hA (dfsVisit_spec succ verts fuel') ih
      (succ v) (setSt c v .visitInProgress) sorted
      (fun w hw => hWF.2 v hv w hw)
      (by
        intro w hw x hx
        by_cases hxv : x = v
        · subst hxv; exact ⟨w, hw, Reaches.refl w⟩
        · rw [setSt_ne c v .visitInProgress hxv] at hx
          obtain ⟨u0, hu0, hr⟩ := hgrey x hx
          exact ⟨u0, hu0, hr.append_edge hw⟩)
      (by omega)
    obtain ⟨⟨c2, s2⟩, hvf⟩ := exOk_ok hvtot
    unfold dfsVisit
    simp only [hvf]
    rfl

theorem topoLoop_ok (succ : Nat → List Nat) (verts : List Nat) (fuel : Nat) :
    ∀ vs c sorted c' sorted', topoLoop succ fuel vs c sorted = .ok (c', sorted') →
      (∀ x, c' x = c x ∨ (c x = .clear ∧ c' x = .visitDone)) ∧
      (∀ v ∈ vs, c v ≠ .visitInProgress → c' v = .visitDone) ∧
      (Jinv succ c sorted → Jinv succ c' sorted') ∧
      ((∀ a ∈ verts, ∀ b ∈ succ a, b ∈ verts) → (∀ v ∈ vs, v ∈ verts) →
        ∀ x, c' x ≠ c x → x ∈ verts) := by
  intro vs
  induction vs with
  | nil =>
    intro c sorted c' sorted' h
    simp only [topoLoop, Except.ok.injEq, Prod.mk.injEq] at h
    obtain ⟨rfl, rfl⟩ := h
    exact ⟨fun x => .inl rfl, by simp, id, fun _ _ x hx => absurd rfl hx⟩
  | cons v vs ih =>
    intro c sorted c' sorted' h
    unfold topoLoop at h
    cases hv : c v with
    | clear =>
      simp only [hv] at h
      cases hd : dfsVisit succ fuel v c sorted with
      | error e => simp only [hd] at h; exact Except.noConfusion h
      | ok r =>
        obtain ⟨c1, s1⟩ := r
        simp only [hd] at h
        obtain ⟨d1, d2, d4, d5⟩ := dfsVisit_spec succ verts fuel v c sorted c1 s1 hd hv
        obtain ⟨a1, a2, a4, a5⟩ := ih c1 s1 c' sorted' h
        refine ⟨?_, ?_, fun hJ => a4 (d4 hJ), ?_⟩
        · intro x
          rcases a1 x with heq | ⟨hclear1, hdone'⟩
          · rcases d1 x with heq0 | ⟨hclear0, hdone1⟩
            · exact .inl (heq.trans heq0)
            · exact .inr ⟨hclear0, heq.trans hdone1⟩
          · rcases d1 x with heq0 | ⟨hclear0, hdone1⟩
            · exact .inr ⟨heq0.symm.trans hclear1, hdone'⟩
            · exact absurd (hdone1.symm.trans hclear1) (fun hcon => SearchState.noConfusion hcon)
        · intro u hu hnotP
          rcases List.mem_cons.mp hu with rfl | hmem
          · rcases a1 u with heq | ⟨_, hdone'⟩
            · rw [heq]; exact d2
            · exact hdone'
          · refine a2 u hmem ?_
            intro hcon
            rcases d1 u with heq | ⟨_, hdone⟩
            · exact hnotP (heq ▸ hcon)
            · rw [hcon] at hdone; exact SearchState.noConfusion hdone
        · intro hWF hl x hx
          by_cases h1 : c1 x = c x
          · exact a5 hWF (fun u hu => hl u (List.mem_cons_of_mem _ hu)) x
              (fun hcon => hx (hcon.trans h1))
          · exact d5 hWF (hl v (List.mem_cons_self v vs)) x h1
    | visitInProgress =>
      simp only [hv] at h
      obtain ⟨a1, a2, a4, a5⟩ := ih c sorted c' sorted' h
      refine ⟨a1, ?_, a4, fun hWF hl => a5 hWF (fun u hu => hl u (List.mem_cons_of_mem _ hu))⟩
      intro u hu hnotP
      rcases List.mem_cons.mp hu with rfl | hmem
      · exact absurd hv hnotP
      · exact a2 u hmem hnotP
    | visitDone =>
      simp only [hv] at h
      obtain ⟨a1, a2, a4, a5⟩ := ih c sorted c' sorted' h
      refine ⟨a1, ?_, a4, fun hWF hl => a5 hWF (fun u hu => hl u (List.mem_cons_of_mem _ hu))⟩
      intro u hu hnotP
      rcases List.mem_cons.mp hu with rfl | hmem
      · rcases a1 u with heq | ⟨_, hdone'⟩
        · rw [heq]; exact hv
        · exact hdone'
      · exact a2 u hmem hnotP

theorem topoLoop_total {succ : Nat → List Nat} {verts : List Nat}
    (hWF : WFGraph verts succ) (hA : ¬ HasCycleIn verts succ) (fuel : Nat) :
    ∀ vs c sorted, (∀ v ∈ vs, v ∈ verts) → (∀ x, c x ≠ .visitInProgress) →
      countClear verts c ≤ fuel →
      exOk (topoLoop succ fuel vs c sorted) = true := by
  intro vs
  induction vs with
  | nil => intro c sorted _ _ _; rfl
  | cons v vs ih =>
    intro c sorted hl hnog hcount
    unfold topoLoop
    cases hv : c v with
    | clear =>
      have h1 := dfsVisit_total hWF hA fuel v c sorted (hl v (List.mem_cons_self v vs)) hv
        (fun x hx => absurd hx (hnog x)) hcount
      obtain ⟨⟨c1, s1⟩, hd⟩ := exOk_ok h1
      obtain ⟨d1, _, _, _⟩ := dfsVisit_spec succ verts fuel v c sorted c1 s1 hd hv
      simp only [hd]
      apply ih c1 s1 (fun u hu => hl u (List.mem_cons_of_mem _ hu))
      · intro x hx
        rcases d1 x with heq | ⟨_, hdone⟩
        · exact hnog x (heq.symm.trans hx)
        · exact SearchState.noConfusion (hdone.symm.trans hx)
      · refine le_trans (countClear_mono ?_) hcount
        intro x hx
        rcases d1 x with heq | ⟨hclear, _⟩
        · exact heq ▸ hx
        · exact hclear
    | visitInProgress => exact absurd hv (hnog v)
    | visitDone =>
      exact ih c sorted (fun u hu => hl u (List.mem_cons_of_mem _ hu)) hnog hcount

/-- Soundness of the topological sort: a successful sort returns a
duplicate-free list containing exactly the graph's vertices, in which every
vertex's successors occur strictly later. -/
theorem topoSortGraph_sound {succ : Nat → List Nat} {verts sorted : List Nat}
    (hWF : WFGraph verts succ) (h : topoSortGraph succ verts = .ok sorted) :
    sorted.Nodup ∧ (∀ x, x ∈ sorted ↔ x ∈ verts) ∧
    (∀ l1 x l2, sorted = l1 ++ x :: l2 → ∀ w ∈ succ x, w ∈ l2) := by
  unfold topoSortGraph at h
  cases hl : topoLoop succ (verts.length + 1) verts (fun _ => .clear) [] with
  | error e => simp only [hl] at h; exact Except.noConfusion h
  | ok r =>
    obtain ⟨c', sorted'⟩ := r
    simp only [hl, Except.ok.injEq] at h
    subst h
    obtain ⟨a1, a2, a4, a5⟩ := topoLoop_ok succ verts (verts.length + 1)
      verts (fun _ => .clear) [] c' sorted' hl
    have hJ0 : Jinv succ (fun _ => .clear) [] := by
      refine ⟨List.nodup_nil, ?_, ?_⟩
      · intro x
        exact ⟨fun hx => SearchState.noConfusion hx, fun hx => absurd hx (List.not_mem_nil x)⟩
      · intro l1 x l2 hsplit w hw
        exact absurd hsplit (by simp)
    have hJ := a4 hJ0
    refine ⟨hJ.1, ?_, hJ.2.2⟩
    intro x
    constructor
    · intro hx
      have hdone : c' x = .visitDone := (hJ.2.1 x).mpr hx
      exact a5 hWF.2 (fun v hv => hv) x
        (by rw [hdone]; exact fun hcon => SearchState.noConfusion hcon)
    · intro hx
      have hdone : c' x = .visitDone :=
        a2 x hx (fun hcon => SearchState.noConfusion hcon)
      exact (hJ.2.1 x).mp hdone

/-- Completeness of the topological sort: on a well-formed acyclic graph
the sort succeeds. -/
theorem topoSortGraph_total {succ : Nat → List Nat} {verts : List Nat}
    (hWF : WFGraph verts succ) (hA : ¬ HasCycleIn verts succ) :
    exOk (topoSortGraph succ verts) = true := by
  have h := topoLoop_total hWF hA (verts.length + 1) verts (fun _ => .clear) []
    (fun v hv => hv) (fun x hcon => SearchState.noConfusion hcon)
    (by
      have h2 : countClear verts (fun _ => .clear) ≤ verts.length := by
        unfold countClear; exact List.countP_le_length _
      omega)
  obtain ⟨⟨c', sorted'⟩, hl⟩ := exOk_ok h
  unfold topoSortGraph
  simp only [hl]
  rfl

theorem indexOf_split_lt {l1 l2 : List Nat} {x w : Nat}
    (hN : (l1 ++ x :: l2).Nodup) (hw : w ∈ l2) :
    (l1 ++ x :: l2).indexOf x < (l1 ++ x :: l2).indexOf w := by
  induction l1 with
  | nil =>
    rw [List.nil_append, List.indexOf_cons_self]
    have hx2 : x ∉ l2 := (List.nodup_cons.mp (List.nil_append (x :: l2) ▸ hN)).1
    have hwx : x ≠ w := fun hcon => hx2 (hcon ▸ hw)
    rw [List.indexOf_cons_ne _ hwx]
    omega
  | cons a l1' ih =>
    have hN2 : (a :: (l1' ++ x :: l2)).Nodup := List.cons_append a l1' (x :: l2) ▸ hN
    obtain ⟨haNot, hNr⟩ := List.nodup_cons.mp hN2
    have hax : a ≠ x := by
      intro hcon; subst hcon
      exact haNot (List.mem_append_right l1' (List.mem_cons_self a l2))
    have haw : a ≠ w := by
      intro hcon; subst hcon
      exact haNot (List.mem_append_right l1' (List.mem_cons_of_mem x hw))
    have hgoal : (a :: (l1' ++ x :: l2)).indexOf x < (a :: (l1' ++ x :: l2)).indexOf w := by
      rw [List.indexOf_cons_ne _ hax, List.indexOf_cons_ne _ haw]
      have := ih hNr
      omega
    rw [List.cons_append]
    exact hgoal

theorem sorted_edge_lt {succ : Nat → List Nat} {verts sorted : List Nat}
    (hWF : WFGraph verts succ) (h : topoSortGraph succ verts = .ok sorted)
    {u w : Nat} (hu : u ∈ sorted) (hw : w ∈ succ u) :
    w ∈ sorted ∧ sorted.indexOf u < sorted.indexOf w := by
  obtain ⟨hN, _, hsplit⟩ := topoSortGraph_sound hWF h
  obtain ⟨l1, l2, hdecomp⟩ := List.append_of_mem hu
  subst hdecomp
  have hw2 : w ∈ l2 := hsplit l1 u l2 rfl w hw
  exact ⟨List.mem_append_right _ (List.mem_cons_of_mem _ hw2), indexOf_split_lt hN hw2⟩

theorem reaches_indexOf_le {succ : Nat → List Nat} {verts sorted : List Nat}
    (hWF : WFGraph verts succ) (h : topoSortGraph succ verts = .ok sorted)
    {x y : Nat} (hr : Reaches succ x y) (hx : x ∈ sorted) :
    y ∈ sorted ∧ sorted.indexOf x ≤ sorted.indexOf y := by
  induction hr with
  | refl v => exact ⟨hx, le_refl _⟩
  | step hm hr2 ih =>
    obtain ⟨hwS, hlt⟩ := sorted_edge_lt hWF h hx hm
    obtain ⟨hy, hle⟩ := ih hwS
    exact ⟨hy, by omega⟩

/-- A successful sort certifies acyclicity. -/
theorem topoSortGraph_ok_acyclic {succ : Nat → List Nat} {verts sorted : List Nat}
    (hWF : WFGraph verts succ) (h : topoSortGraph succ verts = .ok sorted) :
    ¬ HasCycleIn verts succ := by
  rintro ⟨u, hu, w, hw, hr⟩
  have huS : u ∈ sorted := ((topoSortGraph_sound hWF h).2.1 u).mpr hu
  obtain ⟨hwS, hlt⟩ := sorted_edge_lt hWF h huS hw
  obtain ⟨_, hle⟩ := reaches_indexOf_le hWF h hr hwS
  omega

/-! ### C1 — evaluation processes vertices in a valid topological order -/

/-- C1: on every well-formed acyclic graph, the topological sort succeeds
and produces a valid topological order of the vertex set; the evaluation
pass invokes `process()` along exactly that order, so for every edge
`(u → v)` vertex `u` is processed strictly before `v`. -/
theorem topo_order_valid (g : Graph) (hWF : WFGraph g.verts g.edges)
    (hA : ¬ HasCycleIn g.verts g.edges) (hd : g.needsSorting = true) :
    ∃ order, topoSortGraph g.edges g.verts = .ok order ∧
      (evaluateGraph g).2.trace = order ∧
      order.Nodup ∧ (∀ x, x ∈ order ↔ x ∈ g.verts) ∧
      ∀ u v, u ∈ g.verts → v ∈ g.edges u →
        order.indexOf u < order.indexOf v := by
  obtain ⟨order, hsorted⟩ := exOk_ok (topoSortGraph_total hWF hA)
  obtain ⟨hN, hmem, _⟩ := topoSortGraph_sound hWF hsorted
  refine ⟨order, hsorted, ?_, hN, hmem, ?_⟩
  · have he : evaluateGraph g
        = (.success, runPass { g with verts := order, needsSorting := false }) := by
      simp [evaluateGraph, hd, hsorted]
    rw [he]
    exact (runPass_basic _).2.2.2
  · intro u v hu hv
    exact (sorted_edge_lt hWF hsorted ((hmem u).mpr hu) hv).2

/-- The two-vertex example graph has no directed cycle. -/
theorem exampleAcyclic_no_cycle :
    ¬ HasCycleIn exampleAcyclic.verts exampleAcyclic.edges := by
  rintro ⟨u, hu, w, hw, hr⟩
  have hu' : u = 0 ∨ u = 1 := by simpa [exampleAcyclic] using hu
  rcases hu' with rfl | rfl
  · have hw' : w = 1 := by simpa [exampleAcyclic] using hw
    subst hw'
    cases hr with
    | step hm _ => simp [exampleAcyclic] at hm
  · simp [exampleAcyclic] at hw

/-- Witness for C1 at the two-vertex acyclic example graph. -/
theorem topo_order_valid_witness :
    ∃ order, topoSortGraph exampleAcyclic.edges exampleAcyclic.verts = .ok order ∧
      (evaluateGraph exampleAcyclic).2.trace = order ∧
      order.Nodup ∧ (∀ x, x ∈ order ↔ x ∈ exampleAcyclic.verts) ∧
      ∀ u v, u ∈ exampleAcyclic.verts → v ∈ exampleAcyclic.edges u →
        order.indexOf u < order.indexOf v :=
  topo_order_valid exampleAcyclic ⟨by decide, by decide⟩ exampleAcyclic_no_cycle rfl

/-! ### C2 — cycles abort the pass before any detector runs -/

/-- C2: on a well-formed graph with a directed cycle (and the dirty flag
set, as after any graph construction), `EvaluateGraph` returns
`CycleDetected`, invokes no vertex's `process()` (the trace is empty), and
leaves the graph state untouched. -/
theorem cycle_detected_no_process (g : Graph) (hWF : WFGraph g.verts g.edges)
    (hd : g.needsSorting = true) (hC : HasCycleIn g.verts g.edges) :
    (evaluateGraph g).1 = .cycleDetected ∧
    (evaluateGraph g).2.trace = [] ∧
    (evaluateGraph g).2.graph = g := by
  cases hts : topoSortGraph g.edges g.verts with
  | ok sorted => exact absurd hC (topoSortGraph_ok_acyclic hWF hts)
  | error e =>
    have he : evaluateGraph g
        = (e, { graph := g, trace := [], injected := none, pubLog := [] }) := by
      simp [evaluateGraph, hd, hts]
    rw [he]
    exact ⟨topoSortGraph_error_eq g.edges g.verts e hts, rfl, rfl⟩

/-- Witness for C2 at the two-vertex cyclic example graph. -/
theorem cycle_detected_no_process_witness :
    (evaluateGraph exampleCycle).1 = .cycleDetected ∧
    (evaluateGraph exampleCycle).2.trace = [] ∧
    (evaluateGraph exampleCycle).2.graph = exampleCycle :=
  cycle_detected_no_process exampleCycle ⟨by decide, by decide⟩ rfl
    ⟨0, by decide, 1, by decide,
      Reaches.step (show (0 : Nat) ∈ exampleCycle.edges 1 from by decide) (Reaches.refl 0)⟩

/-! ### C8 — a zero-input pass succeeds and produces no output -/

theorem foldl_fixed {α β : Type} {f : β → α → β} {b : β} (h : ∀ a, f b a = b) :
    ∀ l : List α, l.foldl f b = b := by
  intro l
  induction l with
  | nil => rfl
  | cons a l ih => rw [List.foldl_cons, h a]; exact ih

theorem processVertex_empty (kind : Nat → VKind) (v : Nat) :
    processVertex kind ((fun _ => []), []) v = ((fun _ => []), []) := by
  unfold processVertex
  cases kind v with
  | topic k => rfl
  | detector d =>
    show processDetector d ((fun _ => []), []) = _
    unfold processDetector
    exact foldl_fixed (fun s => rfl) d.subs

theorem traverse_empty (kind : Nat → VKind) (verts : List Nat) :
    traverse kind verts ((fun _ => []), []) = ((fun _ => []), []) := by
  unfold traverse
  exact foldl_fixed (processVertex_empty kind) verts

theorem composeOutputList_empty (kind : Nat → VKind) (verts : List Nat) :
    composeOutputList kind verts (fun _ => []) = [] := by
  unfold composeOutputList
  rw [List.filterMap_eq_nil_iff]
  intro v _
  cases kind v <;> simp

theorem runPass_empty_queue (g : Graph) (hq : g.inputQueue = []) :
    (runPass g).graph.outputList = [] ∧ ∀ k, (runPass g).graph.buffers k = [] := by
  refine ⟨?_, ?_⟩ <;>
    simp [runPass, hq, traverse_empty, composeOutputList_empty]

/-- C8: `EvaluateGraph` on a well-formed acyclic graph with an empty input
queue returns `Success`, leaves the output list empty, and leaves every
topic's pass buffer empty. -/
theorem empty_queue_pass (g : Graph) (hWF : WFGraph g.verts g.edges)
    (hA : ¬ HasCycleIn g.verts g.edges) (hq : g.inputQueue = []) :
    (evaluateGraph g).1 = .success ∧
    (evaluateGraph g).2.graph.outputList = [] ∧
    ∀ k, (evaluateGraph g).2.graph.buffers k = [] := by
  cases hd : g.needsSorting with
  | true =>
    obtain ⟨order, hsorted⟩ := exOk_ok (topoSortGraph_total hWF hA)
    have he : evaluateGraph g
        = (.success, runPass { g with verts := order, needsSorting := false }) := by
      simp [evaluateGraph, hd, hsorted]
    rw [he]
    have h := runPass_empty_queue { g with verts := order, needsSorting := false } hq
    exact ⟨rfl, h.1, h.2⟩
  | false =>
    have he : evaluateGraph g = (.success, runPass g) := by simp [evaluateGraph, hd]
    rw [he]
    have h := runPass_empty_queue g hq
    exact ⟨rfl, h.1, h.2⟩

/-- Witness for C8 at the two-vertex acyclic example graph. -/
theorem empty_queue_pass_witness :
    (evaluateGraph exampleAcyclic).1 = .success ∧
    (evaluateGraph exampleAcyclic).2.graph.outputList = [] ∧
    ∀ k, (evaluateGraph exampleAcyclic).2.graph.buffers k = [] :=
  empty_queue_pass exampleAcyclic ⟨by decide, by decide⟩ exampleAcyclic_no_cycle rfl

/-! ### C4 — the output list mirrors the pass's publishes -/

theorem pubInv_empty : PubInv ((fun _ => []), []) := fun _ => rfl

theorem publish_pubInv {st : PubState} (h : PubInv st) (k : TKey) (x : Int) :
    PubInv (publish st k x) := by
  intro k'
  unfold publish
  by_cases hk : k' = k
  · subst hk
    simp [List.filter_append, h k']
  · simp [List.filter_append, hk, h k', Ne.symm hk]

theorem foldl_preserves {α β : Type} {P : β → Prop} {f : β → α → β}
    (h : ∀ b a, P b → P (f b a)) : ∀ (l : List α) (b : β), P b → P (l.foldl f b) := by
  intro l
  induction l with
  | nil => intro b hb; exact hb
  | cons a l ih => intro b hb; rw [List.foldl_cons]; exact ih _ (h b a hb)

theorem pubInv_publishList {st : PubState} (h : PubInv st) (outs : List (TKey × Int)) :
    PubInv (publishList st outs) := by
  unfold publishList
  exact @foldl_preserves _ _ PubInv _ (fun b a hb => publish_pubInv hb a.1 a.2) outs st h

theorem pubInv_dispatchValues {st : PubState} (h : PubInv st) (d : Detector)
    (s : TKey) (vals : List Int) : PubInv (dispatchValues d s vals st) := by
  unfold dispatchValues
  exact @foldl_preserves _ _ PubInv _ (fun b a hb => pubInv_publishList hb (d.evalFn s a))
    vals st h

theorem pubInv_processDetector {st : PubState} (h : PubInv st) (d : Detector) :
    PubInv (processDetector d st) := by
  unfold processDetector
  exact @foldl_preserves _ _ PubInv _ (fun b a hb => pubInv_dispatchValues hb d a (b.1 a))
    d.subs st h

theorem pubInv_processVertex {st : PubState} (h : PubInv st) (kind : Nat → VKind)
    (v : Nat) : PubInv (processVertex kind st v) := by
  unfold processVertex
  cases kind v with
  | topic k => exact h
  | detector d => exact pubInv_processDetector h d

theorem pubInv_traverse {st : PubState} (h : PubInv st) (kind : Nat → VKind)
    (verts : List Nat) : PubInv (traverse kind verts st) := by
  unfold traverse
  exact @foldl_preserves _ _ PubInv _ (fun b a hb => pubInv_processVertex hb kind a)
    verts st h

theorem composeOutput_of_pubInv {st : PubState} (hInv : PubInv st)
    (kind : Nat → VKind) (verts : List Nat) :
    composeOutputList kind verts st.1 =
      verts.filterMap (fun v =>
        match kind v with
        | .topic k =>
          if (st.2.filter (fun p => p.1 == k)).map Prod.snd = []
          then none
          else some (k, (st.2.filter (fun p => p.1 == k)).map Prod.snd)
        | .detector _ => none) := by
  unfold composeOutputList
  apply List.filterMap_congr
  intro v _
  cases kind v with
  | topic k => simp only [hInv k]
  | detector d => rfl

theorem runPass_output (g : Graph) :
    (runPass g).graph.outputList =
      (runPass g).trace.filterMap (fun v =>
        match g.kind v with
        | .topic k =>
          if ((runPass g).pubLog.filter (fun p => p.1 == k)).map Prod.snd = []
          then none
          else some (k, ((runPass g).pubLog.filter (fun p => p.1 == k)).map Prod.snd)
        | .detector _ => none) := by
  cases hq : g.inputQueue with
  | nil =>
    have hInv : PubInv (traverse g.kind g.verts ((fun _ => []), [])) :=
      pubInv_traverse pubInv_empty g.kind g.verts
    simp only [runPass, hq]
    exact composeOutput_of_pubInv hInv g.kind g.verts
  | cons d rest =>
    have hInv : PubInv (traverse g.kind g.verts (publish ((fun _ => []), []) d.1 d.2)) :=
      pubInv_traverse (publish_pubInv pubInv_empty d.1 d.2) g.kind g.verts
    simp only [runPass, hq]
    exact composeOutput_of_pubInv hInv g.kind g.verts

/-- C4: after every successful pass, the output list contains exactly the
topics that received a `Publish` during that pass, in traversal
(topological) order, each carrying exactly the values published to it this
pass, in publish order. -/
theorem output_matches_publishes (g : Graph) (hok : (evaluateGraph g).1 = .success) :
    (evaluateGraph g).2.graph.outputList =
      (evaluateGraph g).2.trace.filterMap (fun v =>
        match g.kind v with
        | .topic k =>
          if ((evaluateGraph g).2.pubLog.filter (fun p => p.1 == k)).map Prod.snd = []
          then none
          else some (k, ((evaluateGraph g).2.pubLog.filter (fun p => p.1 == k)).map Prod.snd)
        | .detector _ => none) := by
  cases hd : g.needsSorting with
  | true =>
    cases hts : topoSortGraph g.edges g.verts with
    | error e =>
      have he : (evaluateGraph g).1 = e := by simp [evaluateGraph, hd, hts]
      exact absurd ((topoSortGraph_error_eq g.edges g.verts e hts).symm.trans
        (he.symm.trans hok)) (by decide)
    | ok sorted =>
      have he : evaluateGraph g
          = (.success, runPass { g with verts := sorted, needsSorting := false }) := by
        simp [evaluateGraph, hd, hts]
      rw [he]
      exact runPass_output { g with verts := sorted, needsSorting := false }
  | false =>
    have he : evaluateGraph g = (.success, runPass g) := by simp [evaluateGraph, hd]
    rw [he]
    exact runPass_output g

/-- Witness for C4 at the S1 chain graph. -/
theorem output_matches_publishes_witness :
    (evaluateGraph exampleChain).2.graph.outputList =
      (evaluateGraph exampleChain).2.trace.filterMap (fun v =>
        match exampleChain.kind v with
        | .topic k =>
          if ((evaluateGraph exampleChain).2.pubLog.filter (fun p => p.1 == k)).map
              Prod.snd = []
          then none
          else some (k, ((evaluateGraph exampleChain).2.pubLog.filter
              (fun p => p.1 == k)).map Prod.snd)
        | .detector _ => none) :=
  output_matches_publishes exampleChain (by decide)

end DetectorGraph
